import Mathlib

/-!
Verification of the forecast front-end data pipeline.

Shallow embedding of the core data-handling functions of the repository:
numeric coercion (`toNumber`, `toNumberStrict`, `toNumberOrZero`), the
exogenous-driver aligner (`exogMapToMatrix`), the CSV codec (`toCSV`,
`parseCSV`), request defaulting (`withPredictDefaults`), the stable
stringify/hash pair (`stableStringify`, `hashString`, `hashObject`) and the
histogram binner (`toHistogram`).

Modelling conventions: JavaScript strings are `List Char` (UTF-16 code units
are modelled as code points, which agrees on the basic plane); JavaScript
numbers are exact rationals together with the three non-finite values
(`NaN`, `Infinity`, `-Infinity`); none of the translated functions performs
arithmetic whose rounding could differ between rationals and binary
floating point on the inputs considered by the theorems below.
-/

/-- JavaScript strings, modelled as lists of characters. -/
abbrev Str := List Char

/-- Characters of a Lean string literal, used to write `Str` constants. -/
def chars (s : String) : Str := s.data

/-- A JavaScript number: an exact finite rational or one of the three
non-finite values. -/
inductive JsNumber where
  | fin (q : ℚ)
  | nan
  | inf
  | negInf
deriving DecidableEq

/-- A loosely typed JavaScript value as it reaches the numeric coercers:
a number, a string, `null`, or `undefined`. -/
inductive JsVal where
  | num (n : JsNumber)
  | str (s : Str)
  | null
  | undefv
deriving DecidableEq

/-- `Number.isFinite` on a `JsNumber`. -/
def JsNumber.isFinite : JsNumber → Bool
  | .fin _ => true
  | _ => false

/-- The finite value of a `JsNumber`, when there is one. -/
def JsNumber.toFinite : JsNumber → Option ℚ
  | .fin q => some q
  | _ => none

/-- JavaScript whitespace accepted around a numeric string literal
(the common code points: space, tab, line feed, carriage return,
vertical tab, form feed). -/
def isJsWhitespace (c : Char) : Bool :=
  c == ' ' || c == '\t' || c == '\n' || c == '\r' ||
  c == Char.ofNat 11 || c == Char.ofNat 12

/-- Strip leading and trailing JavaScript whitespace. -/
def trimJs (s : Str) : Str :=
  ((s.dropWhile isJsWhitespace).reverse.dropWhile isJsWhitespace).reverse

/-- Decimal digit test. -/
def isDigit (c : Char) : Bool := 48 ≤ c.toNat && c.toNat ≤ 57

/-- Hexadecimal digit test. -/
def isHexDigit (c : Char) : Bool :=
  isDigit c || (97 ≤ c.toNat && c.toNat ≤ 102) || (65 ≤ c.toNat && c.toNat ≤ 70)

/-- Octal digit test. -/
def isOctDigit (c : Char) : Bool := 48 ≤ c.toNat && c.toNat ≤ 55

/-- Binary digit test. -/
def isBinDigit (c : Char) : Bool := c == '0' || c == '1'

/-- Value of a decimal digit. -/
def digitVal (c : Char) : ℕ := c.toNat - 48

/-- Value of a hexadecimal digit. -/
def hexDigitVal (c : Char) : ℕ :=
  if 97 ≤ c.toNat then c.toNat - 87
  else if 65 ≤ c.toNat then c.toNat - 55
  else c.toNat - 48

/-- Numeric value of a digit string in a given base. -/
def digitsVal (base : ℕ) (dv : Char → ℕ) (l : Str) : ℕ :=
  l.foldl (fun acc c => base * acc + dv c) 0

/-- Parse the exponent part of a JavaScript decimal literal
(empty input means exponent 0); `none` when the text is not a valid
exponent part or does not consume the whole input. -/
def parseExponent : Str → Option ℤ
  | [] => some 0
  | c :: rest =>
    if c == 'e' || c == 'E' then
      let (sgn, ds) : ℤ × Str :=
        match rest with
        | '+' :: r => (1, r)
        | '-' :: r => (-1, r)
        | r => (1, r)
      if ds ≠ [] && ds.all isDigit then some (sgn * (digitsVal 10 digitVal ds : ℤ))
      else none
    else none

/-- The rational `m·10^e`, built through `mkRat` so that it evaluates by
kernel reduction. -/
def decValue (m : ℤ) (e : ℤ) : ℚ :=
  if 0 ≤ e then mkRat (m * (10 : ℤ) ^ e.toNat) 1 else mkRat m ((10 : ℕ) ^ (-e).toNat)

/-- Parse an unsigned JavaScript decimal literal
(`digits [. digits] [exponent]` or `. digits [exponent]`), requiring the
whole input to be consumed; `none` when the text is not such a literal.
The value of `i.f e n` is `(i·10^len(f) + f) · 10^(n - len(f))`. -/
def parseDecimal (s : Str) : Option ℚ :=
  let intPart := s.takeWhile isDigit
  let rest := s.drop intPart.length
  match rest with
  | '.' :: rest2 =>
    let fracPart := rest2.takeWhile isDigit
    let rest3 := rest2.drop fracPart.length
    if intPart = [] ∧ fracPart = [] then none
    else
      (parseExponent rest3).map (fun e =>
        decValue (digitsVal 10 digitVal intPart * (10 : ℤ) ^ fracPart.length +
          digitsVal 10 digitVal fracPart) (e - fracPart.length))
  | _ =>
    if intPart = [] then none
    else (parseExponent rest).map (fun e =>
      decValue (digitsVal 10 digitVal intPart) e)

/-- The JavaScript `Number(string)` conversion: trims whitespace, maps the
empty string to `0`, accepts signed decimal literals, `Infinity`, and
unsigned hexadecimal / octal / binary literals, and yields `NaN` otherwise.
Values are exact (no binary floating-point rounding or overflow). -/
def jsStringToNumber (s : Str) : JsNumber :=
  match trimJs s with
  | [] => .fin 0
  | '0' :: 'x' :: ds => if ds ≠ [] && ds.all isHexDigit then .fin (mkRat (digitsVal 16 hexDigitVal ds) 1) else .nan
  | '0' :: 'X' :: ds => if ds ≠ [] && ds.all isHexDigit then .fin (mkRat (digitsVal 16 hexDigitVal ds) 1) else .nan
  | '0' :: 'o' :: ds => if ds ≠ [] && ds.all isOctDigit then .fin (mkRat (digitsVal 8 digitVal ds) 1) else .nan
  | '0' :: 'O' :: ds => if ds ≠ [] && ds.all isOctDigit then .fin (mkRat (digitsVal 8 digitVal ds) 1) else .nan
  | '0' :: 'b' :: ds => if ds ≠ [] && ds.all isBinDigit then .fin (mkRat (digitsVal 2 digitVal ds) 1) else .nan
  | '0' :: 'B' :: ds => if ds ≠ [] && ds.all isBinDigit then .fin (mkRat (digitsVal 2 digitVal ds) 1) else .nan
  | t =>
    let (neg, body) : Bool × Str :=
      match t with
      | '+' :: r => (false, r)
      | '-' :: r => (true, r)
      | r => (false, r)
    if body = chars "Infinity" then (if neg then .negInf else .inf)
    else
      match parseDecimal body with
      | some q => .fin (if neg then -q else q)
      | none => .nan

/-- The `Number(v)` conversion applied by the coercers to a non-number
value (`Number(null) = 0`, `Number(undefined) = NaN`). -/
def jsToNumber : JsVal → JsNumber
  | .num n => n
  | .str s => jsStringToNumber s
  | .null => .fin 0
  | .undefv => .nan

/-- `toNumber` from `src/lib/utils.ts`: convert a possible string/nullable
numeric into a finite number, or `undefined` (here `none`) when the input
is `null`/`undefined` or does not convert to a finite number. -/
def toNumber (v : JsVal) : Option ℚ :=
  match v with
  | .null => none
  | .undefv => none
  | v =>
    let n : JsNumber := match v with | .num x => x | v => jsToNumber v
    n.toFinite

/-- `toNumberStrict` from `src/lib/utils.ts`: like `toNumber` but returning
the fallback instead of `undefined`. The fallback is a JavaScript number
and may itself be non-finite. -/
def toNumberStrict (v : JsVal) (fallback : JsNumber) : JsNumber :=
  match toNumber v with
  | some q => .fin q
  | none => fallback

/-- `toNumberOrZero` from the manual exogenous grid component: `null`,
`undefined` and the empty string coerce to `0`; strings are stripped of
every comma and space character before conversion; any non-finite
conversion result coerces to `0`. -/
def toNumberOrZero (v : JsVal) : ℚ :=
  match v with
  | .null => 0
  | .undefv => 0
  | .str [] => 0
  | .num n => match n with | .fin q => q | _ => 0
  | .str s =>
    match jsStringToNumber (s.filter (fun c => !(c == ',' || c == ' '))) with
    | .fin q => q
    | _ => 0

/-- JavaScript array indexing `arr[r]` on a number array: the element, or
`undefined` past the end. -/
def jsIndex (arr : List JsNumber) (r : ℕ) : JsVal :=
  match arr.get? r with
  | some n => .num n
  | none => .undefv

/-- The columns + rows matrix representation of exogenous drivers. -/
structure ExogMatrix where
  columns : List Str
  rows : List (List ℚ)
deriving DecidableEq

/-- `exogMapToMatrix` from the manual exogenous grid component. The source
allocates a `horizon × columns.length` all-zero matrix and then, column by
column, assigns `rows[r][c] = toNumberOrZero(map[columns[c]][r])`; every
cell is assigned exactly once, so the matrix is built here row by row with
the same cell value. -/
def exogMapToMatrix (map : List (Str × List JsNumber)) (columns : List Str)
    (horizon : ℕ) : ExogMatrix :=
  { columns := columns
    rows := (List.range horizon).map (fun r =>
      columns.map (fun name =>
        toNumberOrZero (jsIndex ((List.lookup name map).getD []) r))) }

/-- A JavaScript record with string values, as fed to the CSV serializer:
an association list of key/value pairs with the keys in insertion order. -/
abbrev CsvRecord := List (Str × Str)

/-- `replace(/"/g, an escaped double quote)` as used by the serializer. -/
def dupQuotes : Str → Str
  | [] => []
  | c :: r => if c = '"' then '"' :: '"' :: dupQuotes r else c :: dupQuotes r

/-- The serializer's escape test `[",\n]`: a comma, a double quote or a
line feed anywhere in the cell (the comma is fixed in the regular
expression; the delimiter argument is not consulted). -/
def needsQuote (s : Str) : Bool := s.any (fun c => c == '"' || c == ',' || c == '\n')

/-- The serializer's `esc`: `null`/`undefined` (a missing key) becomes the
empty string; a cell that needs quoting is wrapped in double quotes with
internal double quotes doubled. -/
def escCell : Option Str → Str
  | none => []
  | some s => if needsQuote s then '"' :: (dupQuotes s ++ ['"']) else s

/-- Add the keys of one record to the header accumulator, keeping
first-seen order and uniqueness (the `Set` insertion of the source). -/
def addKeys (acc : List Str) (r : CsvRecord) : List Str :=
  r.foldl (fun a p => if p.1 ∈ a then a else a ++ [p.1]) acc

/-- All columns across the records, in first-seen order. -/
def csvHeaders (rows : List CsvRecord) : List Str := rows.foldl addKeys []

/-- JavaScript `Array.join` with a separator string. -/
def joinSep (sep : Str) : List Str → Str
  | [] => []
  | [x] => x
  | x :: xs => x ++ sep ++ joinSep sep xs

/-- `toCSV` from `src/lib/utils.ts`: empty input serializes to the empty
string; otherwise one header line (the raw keys joined by the delimiter)
followed by one line per record, each cell escaped by `esc`. -/
def toCSV (rows : List CsvRecord) (delim : Char) : Str :=
  if rows = [] then []
  else
    joinSep ['\n']
      (joinSep [delim] (csvHeaders rows) ::
        rows.map (fun r =>
          joinSep [delim] ((csvHeaders rows).map (fun h => escCell (List.lookup h r)))))

/-- One serialized CSV line: the escaped cells joined by the delimiter
(the form every line of `toCSV` takes). -/
def lineOf (cells : List Str) : Str :=
  joinSep [','] (cells.map (fun v => escCell (some v)))

/-- `cur.replace` of a doubled double quote by a single one, scanning left
to right without overlap, as applied by `pushCell` to a quoted cell. -/
def unescQQ : Str → Str
  | '"' :: '"' :: rest => '"' :: unescQQ rest
  | c :: rest => c :: unescQQ rest
  | [] => []

/-- The character scanner of `parseCSV`: state is the remaining text, the
in-quotes flag, the current cell, the current row and the finished rows.
A double quote toggles or escapes; an unquoted delimiter ends the cell; an
unquoted line terminator (a line feed, a carriage return, or the two as a
pair) ends the row; at the end of the text the final cell and row are
always pushed. -/
def scanCSV (d : Char) : Str → Bool → Str → List Str → List (List Str) → List (List Str)
  | [], inQ, cur, row, rows =>
      rows ++ [row ++ [if inQ then unescQQ cur else cur]]
  | '"' :: '"' :: rest, true, cur, row, rows =>
      scanCSV d rest true (cur ++ ['"']) row rows
  | '"' :: rest, true, cur, row, rows =>
      scanCSV d rest false cur row rows
  | '"' :: rest, false, cur, row, rows =>
      scanCSV d rest true cur row rows
  | '\r' :: '\n' :: rest, false, cur, row, rows =>
      if '\r' == d then scanCSV d ('\n' :: rest) false [] (row ++ [cur]) rows
      else scanCSV d rest false [] [] (rows ++ [row ++ [cur]])
  | '\r' :: rest, false, cur, row, rows =>
      if '\r' == d then scanCSV d rest false [] (row ++ [cur]) rows
      else scanCSV d rest false [] [] (rows ++ [row ++ [cur]])
  | '\n' :: rest, false, cur, row, rows =>
      if '\n' == d then scanCSV d rest false [] (row ++ [cur]) rows
      else scanCSV d rest false [] [] (rows ++ [row ++ [cur]])
  | c :: rest, inQ, cur, row, rows =>
      if c == d && !inQ then scanCSV d rest false [] (row ++ [cur]) rows
      else scanCSV d rest inQ (cur ++ [c]) row rows

/-- The trailing cleanup of `parseCSV`: pop rows from the end while every
cell of the last row is the empty string. -/
def dropTrailingEmptyRows (rows : List (List Str)) : List (List Str) :=
  (rows.reverse.dropWhile (fun row => row.all List.isEmpty)).reverse

/-- The parsed form of a CSV text: the first scanned row as headers, the
rest as data rows. -/
structure CsvDoc where
  headers : List Str
  rows : List (List Str)
deriving DecidableEq

/-- `parseCSV` from the manual exogenous grid component. -/
def parseCSV (text : Str) (d : Char) : CsvDoc :=
  match dropTrailingEmptyRows (scanCSV d text false [] [] []) with
  | [] => ⟨[], []⟩
  | h :: t => ⟨h, t⟩

/-- The optional flags object of a predict request. -/
structure PredictFlags where
  use_auto_exog : Option Bool
  exog_strategy : Option Str
  clip_non_negative : Option Bool
  floor : Option ℚ
deriving DecidableEq

/-- An exogenous payload: the column-keyed map form or the columns + rows
matrix form. -/
inductive ExogPayload where
  | map (m : List (Str × List JsNumber))
  | matrix (columns : List Str) (rows : List (List JsVal))
deriving DecidableEq

/-- A predict request body as the defaulter sees it: every field may be
absent (`none` also covers a JavaScript `null`, which the source treats
exactly like an absent field in every test it performs here). -/
structure PredictInput where
  horizon : Option ℚ
  frequency : Option Str
  alpha : Option ℚ
  flags : Option PredictFlags
  exog : Option ExogPayload
deriving DecidableEq

/-- The `DEFAULTS` constant of `src/lib/constants.ts`. -/
structure Defaults where
  horizon : ℚ
  frequency : Str
  alpha : ℚ
  exogStrategy : Str
  clipNonNegative : Bool
  floor : ℚ

/-- Documented defaults: horizon 14, daily frequency, alpha 0.05, smart
auto-exogenous strategy, clipping at zero enabled, floor 0. -/
def DEFAULTS : Defaults :=
  { horizon := 14
    frequency := chars "D"
    alpha := 0.05
    exogStrategy := chars "smart"
    clipNonNegative := true
    floor := 0 }

/-- `withPredictDefaults` from the API hooks module: when the input has no
exogenous payload (absent or null), build a canonical auto body merging the
caller-supplied fields over the documented defaults with
`use_auto_exog = true`; otherwise return the input unchanged. -/
def withPredictDefaults (input : PredictInput) : PredictInput :=
  if input.exog = none then
    { horizon := some (input.horizon.getD DEFAULTS.horizon)
      frequency := some (input.frequency.getD DEFAULTS.frequency)
      alpha := some (input.alpha.getD DEFAULTS.alpha)
      flags := some
        { use_auto_exog := some true
          exog_strategy := some ((input.flags.bind PredictFlags.exog_strategy).getD DEFAULTS.exogStrategy)
          clip_non_negative := some ((input.flags.bind PredictFlags.clip_non_negative).getD DEFAULTS.clipNonNegative)
          floor := some ((input.flags.bind PredictFlags.floor).getD DEFAULTS.floor) }
      exog := none }
  else input

/- A JSON-like JavaScript value tree as consumed by `stableStringify`:
`null`, booleans, numbers (modelled as integers; the serialization of
non-integral doubles plays no role in the properties proved below),
strings, arrays and objects. Arrays and objects carry their own spine so
that all functions below are structurally recursive. Values are trees, so
the `WeakSet` cycle guard of the source never fires on them. -/
mutual
/-- JSON-like value node. -/
inductive Json where
  | null
  | bool (b : Bool)
  | num (n : ℤ)
  | str (s : Str)
  | arr (a : JsonArr)
  | obj (o : JsonObj)
inductive JsonArr where
  | nil
  | cons (hd : Json) (tl : JsonArr)
inductive JsonObj where
  | nil
  | cons (k : Str) (v : Json) (tl : JsonObj)
end

/-- The key/value pairs of an object, in insertion order. -/
def objToList : JsonObj → List (Str × Json)
  | .nil => []
  | .cons k v t => (k, v) :: objToList t

/-- Rebuild an object from a pair list. -/
def objFromList : List (Str × Json) → JsonObj
  | [] => .nil
  | (k, v) :: t => .cons k v (objFromList t)

/-- The elements of a JSON array, in order. -/
def arrToList : JsonArr → List Json
  | .nil => []
  | .cons h t => h :: arrToList t

/-- The key comparison of `Object.keys(val).sort()`: lexicographic string
order. -/
def keyLE (p q : Str × Json) : Prop := p.1 ≤ q.1

instance : DecidableRel keyLE := fun p q => inferInstanceAs (Decidable (p.1 ≤ q.1))

/-- Sort an object's pairs by key (a stable sort; object keys are unique
in JavaScript, so any correct sort gives the same list). -/
def sortPairs (l : List (Str × Json)) : List (Str × Json) := List.insertionSort keyLE l

/- The `sorter` of `stableStringify`: recursively rebuild every object
with its keys in sorted order, preserving array order. The source sorts
the keys of an object and then recurses into each value; since the sort
compares keys only and the recursion is applied pairwise, recursing first
and then sorting — as written here for structural recursion — builds the
same tree. -/
mutual
/-- Canonicalize one JSON value. -/
def canon : Json → Json
  | .null => .null
  | .bool b => .bool b
  | .num n => .num n
  | .str s => .str s
  | .arr a => .arr (canonArr a)
  | .obj o => .obj (objFromList (sortPairs (objToList (canonObj o))))
def canonArr : JsonArr → JsonArr
  | .nil => .nil
  | .cons h t => .cons (canon h) (canonArr t)
def canonObj : JsonObj → JsonObj
  | .nil => .nil
  | .cons k v t => .cons k (canon v) (canonObj t)
end

/-- Decimal digits of a natural number, with fuel for structural
recursion (`fuel = n` always suffices). -/
def natDigits (fuel n : ℕ) : Str :=
  match fuel with
  | 0 => []
  | fuel + 1 => if n = 0 then [] else natDigits fuel (n / 10) ++ [Char.ofNat (48 + n % 10)]

/-- Decimal notation of a natural number. -/
def natToDec (n : ℕ) : Str := if n = 0 then ['0'] else natDigits n n

/-- Decimal notation of an integer, as JavaScript serializes integral
numbers. -/
def intToDec (n : ℤ) : Str := if n < 0 then '-' :: natToDec n.natAbs else natToDec n.natAbs

/-- Lower-case hexadecimal digit. -/
def hexDigitChar (n : ℕ) : Char := if n < 10 then Char.ofNat (48 + n) else Char.ofNat (87 + n)

/-- JSON escaping of one character inside a quoted string. -/
def jsonEscapeChar (c : Char) : Str :=
  if c = '"' then ['\\', '"']
  else if c = '\\' then ['\\', '\\']
  else if c = '\n' then ['\\', 'n']
  else if c = '\r' then ['\\', 'r']
  else if c = '\t' then ['\\', 't']
  else if c = Char.ofNat 8 then ['\\', 'b']
  else if c = Char.ofNat 12 then ['\\', 'f']
  else if c.toNat < 32 then ['\\', 'u', '0', '0', hexDigitChar (c.toNat / 16), hexDigitChar (c.toNat % 16)]
  else [c]

/-- A JSON quoted string literal. -/
def jsonQuote (s : Str) : Str := '"' :: s.foldr (fun c acc => jsonEscapeChar c ++ acc) ['"']

/- `JSON.stringify` on the (already canonicalized) tree; objects are
serialized in their insertion order, which after `canon` is sorted key
order. The object and array delimiters are written by code point. -/
mutual
/-- Serialize one JSON value. -/
def jsonStringify : Json → Str
  | .null => chars "null"
  | .bool true => chars "true"
  | .bool false => chars "false"
  | .num n => intToDec n
  | .str s => jsonQuote s
  | .arr a => '[' :: (jsonStringifyArr a ++ [']'])
  | .obj o => Char.ofNat 123 :: (jsonStringifyObj o ++ [Char.ofNat 125])
def jsonStringifyArr : JsonArr → Str
  | .nil => []
  | .cons h .nil => jsonStringify h
  | .cons h t => jsonStringify h ++ ',' :: jsonStringifyArr t
def jsonStringifyObj : JsonObj → Str
  | .nil => []
  | .cons k v .nil => jsonQuote k ++ ':' :: jsonStringify v
  | .cons k v t => jsonQuote k ++ ':' :: jsonStringify v ++ ',' :: jsonStringifyObj t
end

/-- `stableStringify` from `src/lib/utils.ts`: stringify after sorting
every object's keys recursively. -/
def stableStringify (value : Json) : Str := jsonStringify (canon value)

/-- One step of the djb2-xor hash: the 32-bit truncation of `h * 33`,
xor-ed with the character code. -/
def hashStep (h : ℕ) (c : Char) : ℕ := ((h * 33) % 4294967296) ^^^ c.toNat

/-- Hexadecimal digits of a natural number, with fuel. -/
def natHexDigits (fuel n : ℕ) : Str :=
  match fuel with
  | 0 => []
  | fuel + 1 => if n = 0 then [] else natHexDigits fuel (n / 16) ++ [hexDigitChar (n % 16)]

/-- Lower-case hexadecimal notation of a natural number, as
`toString(16)` renders an unsigned 32-bit value. -/
def natToHex (n : ℕ) : Str := if n = 0 then ['0'] else natHexDigits n n

/-- `hashString` from `src/lib/utils.ts`: djb2-xor over the character
codes, starting from 5381, rendered in hexadecimal. -/
def hashString (s : Str) : Str := natToHex (s.foldl hashStep 5381)

/-- `hashObject` from `src/lib/utils.ts`. -/
def hashObject (value : Json) : Str := hashString (stableStringify value)

/-- The two histogram modes of the error histogram component. -/
inductive HistMode where
  | residual
  | absolute
deriving DecidableEq

/-- One histogram bin as handed to the chart: lower edge, upper edge,
center, count. -/
structure HistRow where
  x0 : ℚ
  x1 : ℚ
  center : ℚ
  count : ℕ
deriving DecidableEq

/-- The `Number.isFinite` filter applied first by `toHistogram`. -/
def cleanOf (values : List JsNumber) : List ℚ := values.filterMap JsNumber.toFinite

/-- `clamp` from the error histogram component; on the integer bin counts
considered here `Math.round` is the identity. -/
def clamp (n mn mx : ℤ) : ℤ := max mn (min mx n)

/-- The mode-specific domain: residual mode forces symmetry around zero;
absolute mode clips the lower end at zero and keeps the upper end at least
the (updated) lower end. -/
def histDomain (mode : HistMode) (mn0 mx0 : ℚ) : ℚ × ℚ :=
  match mode with
  | .residual => (-(max |mn0| |mx0|), max |mn0| |mx0|)
  | .absolute => (max 0 mn0, max (max 0 mn0) mx0)

/-- The bin index of an in-domain value: the floor of its offset in
widths, clipped below to 0, with the domain maximum going to the last
bin. -/
def binIdx (mn width : ℚ) (k : ℕ) (v : ℚ) : ℕ :=
  let j : ℤ := ⌊(v - mn) / width⌋
  if j < 0 then 0
  else if (k : ℤ) ≤ j then k - 1
  else j.toNat

/-- The bin width: the domain span over the bin count, falling back to 1
when that quotient is zero (the span-zero case). -/
def histWidth (mn mx : ℚ) (k : ℕ) : ℚ :=
  if (mx - mn) / (k : ℚ) = 0 then 1 else (mx - mn) / (k : ℚ)

/-- The bin rows: edges at `mn + i·width`, centers midway, and each bin
counting the in-domain values whose `binIdx` is its index (one increment
per value, exactly as the counting loop performs). -/
def histRows (mn width mx : ℚ) (k : ℕ) (clean : List ℚ) : List HistRow :=
  (List.range k).map (fun (i : ℕ) =>
    { x0 := mn + (i : ℚ) * width
      x1 := mn + ((i : ℚ) + 1) * width
      center := (mn + (i : ℚ) * width + (mn + ((i : ℚ) + 1) * width)) / 2
      count := (clean.filter (fun v =>
          decide (mn ≤ v) && decide (v ≤ mx) && (binIdx mn width k v == i))).length })

/-- `toHistogram` from the error histogram component: filter to finite
values, compute the mode-specific domain, clamp the bin count to `[5, 60]`,
derive the bin width (1 when the span is zero), and count each in-domain
value in the bin given by `binIdx`; values outside the domain are
dropped. -/
def toHistogram (values : List JsNumber) (bins : ℤ) (mode : HistMode) : List HistRow :=
  match cleanOf values with
  | [] => []
  | c :: cs =>
    histRows (histDomain mode (cs.foldl min c) (cs.foldl max c)).1
      (histWidth (histDomain mode (cs.foldl min c) (cs.foldl max c)).1
        (histDomain mode (cs.foldl min c) (cs.foldl max c)).2
        (clamp bins 5 60).toNat)
      (histDomain mode (cs.foldl min c) (cs.foldl max c)).2
      (clamp bins 5 60).toNat (c :: cs)

/- Spec-side notions used to state claims: the key-order equivalence of
JSON values, a plain character split, and the serializer escape rule as
the (amended) spec words it. -/
/-- Equality of JSON values up to the ordering of object keys: arrays are
compared element-wise in order, objects must have the same
(duplicate-free) key multiset with values related key-wise. -/
inductive KeyPerm : Json → Json → Prop where
  | null : KeyPerm .null .null
  | bool (b : Bool) : KeyPerm (.bool b) (.bool b)
  | num (n : ℤ) : KeyPerm (.num n) (.num n)
  | str (s : Str) : KeyPerm (.str s) (.str s)
  | arr {a₁ a₂ : JsonArr} :
      (arrToList a₁).length = (arrToList a₂).length →
      (∀ (i : ℕ) (h₁ : i < (arrToList a₁).length) (h₂ : i < (arrToList a₂).length),
        KeyPerm ((arrToList a₁).get ⟨i, h₁⟩) ((arrToList a₂).get ⟨i, h₂⟩)) →
      KeyPerm (.arr a₁) (.arr a₂)
  | obj {o₁ o₂ : JsonObj} :
      ((objToList o₁).map Prod.fst).Nodup →
      ((objToList o₂).map Prod.fst).Nodup →
      ((objToList o₁).map Prod.fst).Perm ((objToList o₂).map Prod.fst) →
      (∀ k v₁ v₂, (k, v₁) ∈ objToList o₁ → (k, v₂) ∈ objToList o₂ → KeyPerm v₁ v₂) →
      KeyPerm (.obj o₁) (.obj o₂)

/-- Split a string at every occurrence of a character; the empty string
splits into one empty cell. Used to state what the parser returns on a
single plain row. -/
def splitOnChar (d : Char) : Str → List Str
  | [] => [[]]
  | c :: rest =>
    if c = d then [] :: splitOnChar d rest
    else
      match splitOnChar d rest with
      | s :: ss => (c :: s) :: ss
      | [] => [[c]]

/-- The cell escape as the amended spec words it: a cell containing a
comma, a double quote or a line feed — the comma being fixed, independent
of the delimiter argument — is wrapped in double quotes with internal
double quotes doubled; a missing key serializes to the empty string. -/
def escCellSpec : Option Str → Str
  | none => []
  | some s =>
    if s.any (fun c => c == ',' || c == '"' || c == '\n') then '"' :: (dupQuotes s ++ ['"'])
    else s

/-- The serializer as the amended spec describes it, with `escCellSpec`
applied to every cell. -/
def toCSVspec (rows : List CsvRecord) (delim : Char) : Str :=
  if rows = [] then []
  else
    joinSep ['\n']
      (joinSep [delim] (csvHeaders rows) ::
        rows.map (fun r =>
          joinSep [delim] ((csvHeaders rows).map (fun h => escCellSpec (List.lookup h r)))))


/- ===================== Theorems ===================== -/

/-- C1: `exogMapToMatrix` returns the server-declared columns in order,
`horizon` rows of `columns.length` entries, each entry the fallback-0
coercion of `map[columns[c]][r]`; map keys absent from `columns` have no
effect; a declared column missing from the map is all zero; and the
concrete example from the spec holds. -/
theorem C1_exogMapToMatrix_alignment :
    ∀ (map : List (Str × List JsNumber)) (columns : List Str) (horizon : ℕ),
      (exogMapToMatrix map columns horizon).columns = columns ∧
      (exogMapToMatrix map columns horizon).rows.length = horizon ∧
      (∀ row ∈ (exogMapToMatrix map columns horizon).rows, row.length = columns.length) ∧
      (∀ (r c : ℕ) (name : Str), r < horizon → columns[c]? = some name →
        ((exogMapToMatrix map columns horizon).rows[r]?.bind fun (row : List ℚ) => row[c]?) =
          some (toNumberOrZero (jsIndex ((List.lookup name map).getD []) r))) ∧
      (∀ k arr, k ∉ columns →
        exogMapToMatrix ((k, arr) :: map) columns horizon =
          exogMapToMatrix map columns horizon) ∧
      (∀ (r c : ℕ) (name : Str), r < horizon → columns[c]? = some name → List.lookup name map = none →
        ((exogMapToMatrix map columns horizon).rows[r]?.bind fun (row : List ℚ) => row[c]?) = some 0) ∧
      exogMapToMatrix [(chars "ADR", [.fin 1, .fin 2, .fin 3])]
          [chars "ADR", chars "RoomNights"] 3 =
        ⟨[chars "ADR", chars "RoomNights"], [[1, 0], [2, 0], [3, 0]]⟩ := by
  intro map columns horizon
  refine ⟨rfl, ?_, ?_, ?_, ?_, ?_, by decide⟩
  · simp [exogMapToMatrix]
  · intro row hrow
    simp only [exogMapToMatrix, List.mem_map] at hrow
    obtain ⟨r, hr, hrow⟩ := hrow
    simp [← hrow]
  · intro r c name hr hc
    simp [exogMapToMatrix, List.getElem?_map, List.getElem?_range hr, hc]
  · intro k arr hk
    simp only [exogMapToMatrix, ExogMatrix.mk.injEq, true_and]
    refine List.map_congr_left (fun r hr => ?_)
    refine List.map_congr_left (fun name hname => ?_)
    have hne : name ≠ k := fun h => hk (h ▸ hname)
    simp [List.lookup, beq_eq_false_iff_ne.mpr hne]
  · intro r c name hr hc hnone
    simp [exogMapToMatrix, List.getElem?_map, List.getElem?_range hr, hc, hnone,
      jsIndex, toNumberOrZero]

/-- Witness for C1 at the spec's example: the missing declared column is
zero at row 1, an extra map key is dropped, and the row count is the
horizon. -/
theorem C1_exogMapToMatrix_alignment_witness :
    ((exogMapToMatrix [(chars "ADR", [.fin 1, .fin 2, .fin 3])]
        [chars "ADR", chars "RoomNights"] 3).rows[1]?.bind fun (row : List ℚ) => row[1]?) = some 0 ∧
    exogMapToMatrix [(chars "Other", [.fin 9]), (chars "ADR", [.fin 1, .fin 2, .fin 3])]
        [chars "ADR", chars "RoomNights"] 3 =
      exogMapToMatrix [(chars "ADR", [.fin 1, .fin 2, .fin 3])]
        [chars "ADR", chars "RoomNights"] 3 ∧
    (exogMapToMatrix [(chars "ADR", [.fin 1, .fin 2, .fin 3])]
        [chars "ADR", chars "RoomNights"] 3).rows.length = 3 := by
  have h := C1_exogMapToMatrix_alignment [(chars "ADR", [.fin 1, .fin 2, .fin 3])]
    [chars "ADR", chars "RoomNights"] 3
  exact ⟨h.2.2.2.2.2.1 1 1 (chars "RoomNights") (by decide) (by decide) (by decide),
    h.2.2.2.2.1 (chars "Other") [.fin 9] (by decide), h.2.1⟩

/-- C7: with no exogenous payload, `withPredictDefaults` returns the
canonical auto body with `use_auto_exog = true` and caller-supplied
`alpha`/`frequency`/`horizon`/strategy/clip/floor merged over the
documented defaults; with an exogenous payload the input passes through
unchanged. -/
theorem C7_withPredictDefaults_spec :
    ∀ input : PredictInput,
      (input.exog = none →
        withPredictDefaults input =
          { horizon := some (input.horizon.getD DEFAULTS.horizon)
            frequency := some (input.frequency.getD DEFAULTS.frequency)
            alpha := some (input.alpha.getD DEFAULTS.alpha)
            flags := some
              { use_auto_exog := some true
                exog_strategy := some ((input.flags.bind PredictFlags.exog_strategy).getD DEFAULTS.exogStrategy)
                clip_non_negative := some ((input.flags.bind PredictFlags.clip_non_negative).getD DEFAULTS.clipNonNegative)
                floor := some ((input.flags.bind PredictFlags.floor).getD DEFAULTS.floor) }
            exog := none }) ∧
      (input.exog ≠ none → withPredictDefaults input = input) := by
  intro input
  constructor
  · intro h; simp [withPredictDefaults, h]
  · intro h; simp [withPredictDefaults, h]

/-- Witness for C7 at the spec's Example 4: `{horizon: 14, frequency: D}`
with no exog key yields the auto body with `use_auto_exog = true` and the
documented default strategy, clip and floor. -/
theorem C7_withPredictDefaults_spec_witness :
    withPredictDefaults ⟨some 14, some (chars "D"), none, none, none⟩ =
      ⟨some 14, some (chars "D"), some DEFAULTS.alpha,
        some ⟨some true, some DEFAULTS.exogStrategy, some DEFAULTS.clipNonNegative,
          some DEFAULTS.floor⟩, none⟩ := by
  have h := (C7_withPredictDefaults_spec ⟨some 14, some (chars "D"), none, none, none⟩).1 rfl
  simpa using h

/-- C8 counterexample: with the non-finite fallback `NaN`, the required
coercion of `null` returns `NaN`, on which the optional coercion is
absent — the composition is not always defined. -/
theorem C8_counterexample :
    (toNumber (.num (toNumberStrict .null .nan))).isSome = false := by decide

/-- C8 as amended: for every raw value and every finite fallback, the
optional coercion of the required coercion's result is defined. -/
theorem C8_toNumberStrict_composition :
    ∀ (v : JsVal) (q : ℚ), (toNumber (.num (toNumberStrict v (.fin q)))).isSome = true := by
  intro v q
  cases h : toNumber v with
  | some p =>
    have e : toNumberStrict v (.fin q) = .fin p := by unfold toNumberStrict; rw [h]
    rw [e]; rfl
  | none =>
    have e : toNumberStrict v (.fin q) = .fin q := by unfold toNumberStrict; rw [h]
    rw [e]; rfl

/-- C10: the grid coercion strips commas and spaces before parsing
(`1,234` coerces to 1234, a padded `5` to 5), sends `null`, `undefined`
and the empty string to 0, sends every non-finite conversion to 0, and
differs from the general strict coercion, which sends `1,234` to the
fallback 0. -/
theorem C10_toNumberOrZero_spec :
    toNumberOrZero (.str (chars "1,234")) = 1234 ∧
    toNumberOrZero (.str (chars " 5 ")) = 5 ∧
    toNumberOrZero .null = 0 ∧
    toNumberOrZero .undefv = 0 ∧
    toNumberOrZero (.str []) = 0 ∧
    (∀ s : Str, toNumberOrZero (.str s) =
      match jsStringToNumber (s.filter (fun c => !(c == ',' || c == ' '))) with
      | .fin q => q
      | _ => 0) ∧
    (∀ n : JsNumber, toNumberOrZero (.num n) =
      match n with | .fin q => q | _ => 0) ∧
    toNumberStrict (.str (chars "1,234")) (.fin 0) = .fin 0 ∧
    toNumberStrict (.str (chars "1,234")) (.fin 0) ≠
      .fin (toNumberOrZero (.str (chars "1,234"))) := by
  refine ⟨by decide, by decide, rfl, rfl, rfl, ?_, ?_, by decide, by decide⟩
  · intro s
    cases s with
    | nil => rfl
    | cons c cs => rfl
  · intro n; cases n <;> rfl

/- Step lemmas for the CSV scanner. -/

/-- An opening double quote enters quoted mode. -/
theorem scanCSV_quote_open (d : Char) (rest : Str) (cur : Str) (row : List Str)
    (rows : List (List Str)) :
    scanCSV d ('"' :: rest) false cur row rows = scanCSV d rest true cur row rows := by
  cases rest with
  | nil => rfl
  | cons c r =>
    by_cases h : c = '"'
    · subst h; rfl
    · rw [scanCSV.eq_def]
      split <;> aesop

/-- A doubled double quote inside a quoted cell is a literal quote. -/
theorem scanCSV_quote_escape (d : Char) (rest : Str) (cur : Str) (row : List Str)
    (rows : List (List Str)) :
    scanCSV d ('"' :: '"' :: rest) true cur row rows =
      scanCSV d rest true (cur ++ ['"']) row rows := rfl

/-- A closing double quote (not followed by another) leaves quoted mode. -/
theorem scanCSV_quote_close (d : Char) (rest : Str) (cur : Str) (row : List Str)
    (rows : List (List Str)) (h : rest.head? ≠ some '"') :
    scanCSV d ('"' :: rest) true cur row rows = scanCSV d rest false cur row rows := by
  cases rest with
  | nil => rfl
  | cons c r =>
    by_cases hc : c = '"'
    · exact absurd (by simp [hc]) h
    · rw [scanCSV.eq_def]
      split <;> aesop

/-- Any character other than a double quote, line feed or carriage return
either ends the cell (when it is the unquoted delimiter) or is literal. -/
theorem scanCSV_other (d c : Char) (rest : Str) (inQ : Bool) (cur : Str) (row : List Str)
    (rows : List (List Str)) (h1 : c ≠ '"') (h2 : c ≠ '\n') (h3 : c ≠ '\r') :
    scanCSV d (c :: rest) inQ cur row rows =
      if c == d && !inQ then scanCSV d rest false [] (row ++ [cur]) rows
      else scanCSV d rest inQ (cur ++ [c]) row rows := by
  rw [scanCSV.eq_def]
  split <;> aesop

/-- The unquoted delimiter pushes the current cell. -/
theorem scanCSV_delim (d : Char) (rest : Str) (cur : Str) (row : List Str)
    (rows : List (List Str)) (h1 : d ≠ '"') (h2 : d ≠ '\n') (h3 : d ≠ '\r') :
    scanCSV d (d :: rest) false cur row rows =
      scanCSV d rest false [] (row ++ [cur]) rows := by
  rw [scanCSV_other d d rest false cur row rows h1 h2 h3]
  simp

/-- An unquoted line feed (when it is not the delimiter) ends the row. -/
theorem scanCSV_newline (d : Char) (rest : Str) (cur : Str) (row : List Str)
    (rows : List (List Str)) (h : d ≠ '\n') :
    scanCSV d ('\n' :: rest) false cur row rows =
      scanCSV d rest false [] [] (rows ++ [row ++ [cur]]) := by
  rw [scanCSV.eq_def]
  split <;> aesop

/-- Inside a quoted cell every character except the double quote is
literal. -/
theorem scanCSV_inq_literal (d c : Char) (rest : Str) (cur : Str) (row : List Str)
    (rows : List (List Str)) (h : c ≠ '"') :
    scanCSV d (c :: rest) true cur row rows =
      scanCSV d rest true (cur ++ [c]) row rows := by
  rw [scanCSV.eq_def]
  split <;> aesop

/-- Scanning a run of plain characters (no quote, no terminator, not the
delimiter) appends it to the current cell. -/
theorem scanCSV_plain (d : Char) (s : Str) (rest : Str) (cur : Str) (row : List Str)
    (rows : List (List Str))
    (hs : ∀ c ∈ s, c ≠ '"' ∧ c ≠ '\n' ∧ c ≠ '\r' ∧ c ≠ d) :
    scanCSV d (s ++ rest) false cur row rows = scanCSV d rest false (cur ++ s) row rows := by
  induction s generalizing cur with
  | nil => simp
  | cons c cs ih =>
    obtain ⟨h1, h2, h3, h4⟩ := hs c (by simp)
    rw [List.cons_append, scanCSV_other d c _ _ _ _ _ h1 h2 h3]
    have hcd : (c == d && !(false : Bool)) = false := by simp [h4]
    rw [hcd]
    simp only [Bool.false_eq_true, if_false]
    rw [ih _ (fun u hu => hs u (by simp [hu]))]
    simp

/-- Scanning the quote-doubled body of a quoted cell accumulates the raw
cell value and leaves quoted mode at the closing quote. -/
theorem scanCSV_dupQuotes (d : Char) (v : Str) (rest : Str) (cur : Str) (row : List Str)
    (rows : List (List Str)) (hrest : rest.head? ≠ some '"') :
    scanCSV d (dupQuotes v ++ '"' :: rest) true cur row rows =
      scanCSV d rest false (cur ++ v) row rows := by
  induction v generalizing cur with
  | nil =>
    simp only [dupQuotes, List.nil_append, List.append_nil]
    exact scanCSV_quote_close d rest cur row rows hrest
  | cons c cs ih =>
    by_cases hc : c = '"'
    · subst hc
      simp only [dupQuotes, eq_self_iff_true, if_true, List.cons_append]
      rw [scanCSV_quote_escape, ih _]
      simp
    · simp only [dupQuotes, if_neg hc, List.cons_append]
      rw [scanCSV_inq_literal d c _ _ _ _ hc, ih _]
      simp

/-- Scanning one escaped cell accumulates exactly the raw cell value. -/
theorem scanCSV_escCell (v : Str) (rest : Str) (cur : Str) (row : List Str)
    (rows : List (List Str)) (hv : '\r' ∉ v) (hrest : rest.head? ≠ some '"') :
    scanCSV ',' (escCell (some v) ++ rest) false cur row rows =
      scanCSV ',' rest false (cur ++ v) row rows := by
  by_cases hq : needsQuote v
  · simp only [escCell, if_pos hq, List.cons_append, List.append_assoc,
      List.singleton_append, List.nil_append]
    rw [scanCSV_quote_open, scanCSV_dupQuotes ',' v rest cur row rows hrest]
  · simp only [escCell, if_neg hq]
    refine scanCSV_plain ',' v rest cur row rows (fun c hc => ?_)
    have hnq : ∀ c ∈ v, ¬(c == '"' || c == ',' || c == '\n') := by
      intro c hc hor
      exact hq (List.any_eq_true.mpr ⟨c, hc, hor⟩)
    have h4 := hnq c hc
    simp only [Bool.or_eq_true, beq_iff_eq, not_or] at h4
    obtain ⟨⟨ha, hb⟩, hcn⟩ := h4
    exact ⟨ha, hcn, fun he => hv (he ▸ hc), hb⟩

/-- Scanning one serialized line followed by a line feed pushes exactly
its raw cells as one row. -/
theorem scanCSV_line_nl :
    ∀ (vs : List Str) (v : Str) (rest : Str) (row : List Str) (rows : List (List Str)),
      (∀ u ∈ v :: vs, '\r' ∉ u) →
      scanCSV ',' (lineOf (v :: vs) ++ '\n' :: rest) false [] row rows =
        scanCSV ',' rest false [] [] (rows ++ [row ++ (v :: vs)]) := by
  intro vs
  induction vs with
  | nil =>
    intro v rest row rows hcr
    have hv : '\r' ∉ v := hcr v (by simp)
    simp only [lineOf, List.map_cons, List.map_nil, joinSep]
    rw [scanCSV_escCell v ('\n' :: rest) [] row rows hv (by simp)]
    simp only [List.nil_append]
    rw [scanCSV_newline ',' rest v row rows (by decide)]
  | cons v2 vs ih =>
    intro v rest row rows hcr
    have hv : '\r' ∉ v := hcr v (by simp)
    have hstep : lineOf (v :: v2 :: vs) = escCell (some v) ++ ',' :: lineOf (v2 :: vs) := by
      simp [lineOf, joinSep]
    rw [hstep, List.append_assoc, List.cons_append]
    rw [scanCSV_escCell v _ [] row rows hv (by simp)]
    simp only [List.nil_append]
    rw [scanCSV_delim ',' _ _ row rows (by decide) (by decide) (by decide)]
    rw [ih v2 rest (row ++ [v]) rows (fun u hu => hcr u (by simp at hu ⊢; tauto))]
    simp

/-- Scanning one serialized line at the end of the text pushes exactly its
raw cells as the final row. -/
theorem scanCSV_line_eof :
    ∀ (vs : List Str) (v : Str) (row : List Str) (rows : List (List Str)),
      (∀ u ∈ v :: vs, '\r' ∉ u) →
      scanCSV ',' (lineOf (v :: vs)) false [] row rows = rows ++ [row ++ (v :: vs)] := by
  intro vs
  induction vs with
  | nil =>
    intro v row rows hcr
    have hv : '\r' ∉ v := hcr v (by simp)
    simp only [lineOf, List.map_cons, List.map_nil, joinSep]
    rw [show escCell (some v) = escCell (some v) ++ [] by simp]
    rw [scanCSV_escCell v [] [] row rows hv (by simp)]
    simp [scanCSV]
  | cons v2 vs ih =>
    intro v row rows hcr
    have hv : '\r' ∉ v := hcr v (by simp)
    have hstep : lineOf (v :: v2 :: vs) = escCell (some v) ++ ',' :: lineOf (v2 :: vs) := by
      simp [lineOf, joinSep]
    rw [hstep]
    rw [scanCSV_escCell v _ [] row rows hv (by simp)]
    simp only [List.nil_append]
    rw [scanCSV_delim ',' _ _ row rows (by decide) (by decide) (by decide)]
    rw [ih v2 (row ++ [v]) rows (fun u hu => hcr u (by simp at hu ⊢; tauto))]
    simp

/-- Scanning a nonempty list of serialized lines joined by line feeds
appends exactly the raw rows. -/
theorem scanCSV_lines :
    ∀ (ls : List (List Str)) (l : List Str) (rows : List (List Str)),
      (∀ r ∈ l :: ls, r ≠ []) →
      (∀ r ∈ l :: ls, ∀ u ∈ r, '\r' ∉ u) →
      scanCSV ',' (joinSep ['\n'] ((l :: ls).map lineOf)) false [] [] rows =
        rows ++ (l :: ls) := by
  intro ls
  induction ls with
  | nil =>
    intro l rows hne hcr
    obtain ⟨v, vs, rfl⟩ : ∃ v vs, l = v :: vs := by
      cases l with
      | nil => exact absurd rfl (hne [] (by simp))
      | cons v vs => exact ⟨v, vs, rfl⟩
    simp only [List.map_cons, List.map_nil, joinSep]
    rw [scanCSV_line_eof vs v [] rows (hcr _ (by simp))]
    simp
  | cons l2 ls ih =>
    intro l rows hne hcr
    obtain ⟨v, vs, rfl⟩ : ∃ v vs, l = v :: vs := by
      cases l with
      | nil => exact absurd rfl (hne [] (by simp))
      | cons v vs => exact ⟨v, vs, rfl⟩
    have hstep : joinSep ['\n'] (((v :: vs) :: l2 :: ls).map lineOf) =
        lineOf (v :: vs) ++ '\n' :: joinSep ['\n'] ((l2 :: ls).map lineOf) := by
      simp [joinSep]
    rw [hstep]
    rw [scanCSV_line_nl vs v _ [] rows (hcr _ (by simp))]
    simp only [List.nil_append]
    rw [ih l2 (rows ++ [v :: vs])
      (fun r hr => hne r (by simp at hr ⊢; tauto))
      (fun r hr => hcr r (by simp at hr ⊢; tauto))]
    simp

/-- A cell without comma, quote or line feed serializes as itself. -/
theorem escCell_of_safe (s : Str) (h1 : ',' ∉ s) (h2 : '"' ∉ s) (h3 : '\n' ∉ s) :
    escCell (some s) = s := by
  have hq : needsQuote s = false := by
    simp only [needsQuote, List.any_eq_false]
    intro c hc
    simp only [Bool.or_eq_true, beq_iff_eq, not_or]
    exact ⟨⟨fun e => h2 (e ▸ hc), fun e => h1 (e ▸ hc)⟩, fun e => h3 (e ▸ hc)⟩
  simp [escCell, hq]

/-- Adding a record whose keys are fresh appends them in order. -/
theorem addKeys_append :
    ∀ (r : CsvRecord) (acc : List Str), (r.map Prod.fst).Nodup →
      (∀ k ∈ r.map Prod.fst, k ∉ acc) → addKeys acc r = acc ++ r.map Prod.fst := by
  intro r
  induction r with
  | nil => intro acc _ _; simp [addKeys]
  | cons p r ih =>
    intro acc hnd hdis
    have hstep : addKeys acc (p :: r) =
        addKeys (if p.1 ∈ acc then acc else acc ++ [p.1]) r := rfl
    have hp : p.1 ∉ acc := hdis p.1 (by simp)
    rw [hstep, if_neg hp]
    simp only [List.map_cons, List.nodup_cons] at hnd
    have hdis2 : ∀ k ∈ r.map Prod.fst, k ∉ acc ++ [p.1] := by
      intro k hk
      simp only [List.mem_append, List.mem_singleton, not_or]
      exact ⟨hdis k (by simp [hk]), fun e => hnd.1 (e ▸ hk)⟩
    rw [ih (acc ++ [p.1]) hnd.2 hdis2]
    simp

/-- Adding a record whose keys are all present leaves the headers alone. -/
theorem addKeys_id :
    ∀ (r : CsvRecord) (acc : List Str),
      (∀ k ∈ r.map Prod.fst, k ∈ acc) → addKeys acc r = acc := by
  intro r
  induction r with
  | nil => intro acc _; simp [addKeys]
  | cons p r ih =>
    intro acc hsub
    have hstep : addKeys acc (p :: r) =
        addKeys (if p.1 ∈ acc then acc else acc ++ [p.1]) r := rfl
    rw [hstep, if_pos (hsub p.1 (by simp))]
    exact ih acc (fun k hk => hsub k (by simp [hk]))

/-- Folding further same-key records over the headers is the identity. -/
theorem csvHeaders_fold :
    ∀ (rest : List CsvRecord) (ks : List Str),
      (∀ r ∈ rest, r.map Prod.fst = ks) → List.foldl addKeys ks rest = ks := by
  intro rest
  induction rest with
  | nil => intro ks _; rfl
  | cons r rest ih =>
    intro ks hks
    have h1 : addKeys ks r = ks :=
      addKeys_id r ks (fun k hk => (hks r (by simp)) ▸ hk)
    simpa [h1] using ih ks (fun r hr => hks r (by simp [hr]))

/-- For a rectangular record set the header union is the common key
list. -/
theorem csvHeaders_rect (records : List CsvRecord) (ks : List Str)
    (hks : ∀ r ∈ records, r.map Prod.fst = ks) (hnd : ks.Nodup)
    (hne : records ≠ []) : csvHeaders records = ks := by
  cases records with
  | nil => exact absurd rfl hne
  | cons r rest =>
    have h0 : csvHeaders (r :: rest) = List.foldl addKeys (addKeys [] r) rest := rfl
    have h1 : addKeys [] r = ks := by
      have := addKeys_append r [] (by rw [hks r (by simp)]; exact hnd) (by simp)
      simpa [hks r (by simp)] using this
    rw [h0, h1]
    exact csvHeaders_fold rest ks (fun r hr => hks r (by simp [hr]))

/-- Looking the common keys back up in a rectangular record recovers its
values in order. -/
theorem lookup_rect :
    ∀ (r : CsvRecord), (r.map Prod.fst).Nodup →
      (r.map Prod.fst).map (fun k => List.lookup k r) = r.map (fun p => some p.2) := by
  intro r
  induction r with
  | nil => intro _; rfl
  | cons p r ih =>
    intro hnd
    simp only [List.map_cons, List.nodup_cons] at hnd ⊢
    have hhead : List.lookup p.1 (p :: r) = some p.2 := by simp [List.lookup]
    have hcongr : (r.map Prod.fst).map (fun k => List.lookup k (p :: r)) =
        (r.map Prod.fst).map (fun k => List.lookup k r) := by
      refine List.map_congr_left (fun k hk => ?_)
      have : k ≠ p.1 := fun e => hnd.1 (e ▸ hk)
      simp [List.lookup, beq_eq_false_iff_ne.mpr this]
    rw [hhead, hcongr, ih hnd.2]

/-- The trailing cleanup keeps a row list whose last row has a non-empty
cell. -/
theorem dropTrailingEmptyRows_of_last (l : List (List Str)) (r : List Str)
    (hl : l.getLast? = some r) (h : r.all List.isEmpty = false) :
    dropTrailingEmptyRows l = l := by
  unfold dropTrailingEmptyRows
  cases hrev : l.reverse with
  | nil =>
    have : l = [] := by simpa using congrArg List.reverse hrev
    subst this; simp at hl
  | cons a t =>
    have ha : a = r := by
      have h1 : (l.reverse).head? = l.getLast? := List.head?_reverse l
      rw [hrev, hl] at h1
      simpa using h1
    have hfa : a.all List.isEmpty = false := by rw [ha]; exact h
    rw [List.dropWhile_cons]
    simp only [hfa, Bool.false_eq_true, if_false]
    rw [← hrev, List.reverse_reverse]

/-- C3: for a rectangular record set with duplicate-free, delimiter-safe
keys, values free of bare carriage returns, and a last record with at
least one non-empty cell, parsing the serialized text reconstructs the
first-seen header union and every cell value exactly — including values
with embedded commas, double quotes and line feeds, which round-trip
through the quoting rules. -/
theorem C3_csv_roundTrip :
    ∀ (records : List CsvRecord) (ks : List Str),
      (∀ r ∈ records, r.map Prod.fst = ks) →
      ks.Nodup →
      (∀ k ∈ ks, ',' ∉ k ∧ '"' ∉ k ∧ '\n' ∉ k ∧ '\r' ∉ k) →
      (∀ r ∈ records, ∀ p ∈ r, '\r' ∉ p.2) →
      (∀ rl ∈ records.getLast?, ∃ p ∈ rl, p.2 ≠ []) →
      parseCSV (toCSV records ',') ',' =
        ⟨csvHeaders records, records.map (fun r => r.map Prod.snd)⟩ := by
  intro records ks hks hnd hsafe hcr hlast
  cases records with
  | nil => decide
  | cons r₀ rest =>
    have hne : r₀ :: rest ≠ ([] : List CsvRecord) := by simp
    have hH : csvHeaders (r₀ :: rest) = ks := csvHeaders_rect _ ks hks hnd hne
    obtain ⟨rl, hgl⟩ : ∃ rl, (r₀ :: rest).getLast? = some rl := by
      cases hgl : (r₀ :: rest).getLast? with
      | none => exact absurd (List.getLast?_eq_none_iff.mp hgl) hne
      | some rl => exact ⟨rl, rfl⟩
    obtain ⟨p₀, hp₀, hp₀ne⟩ := hlast rl (Option.mem_def.mpr hgl)
    have hrlmem : rl ∈ r₀ :: rest := by
      obtain ⟨hne2, he⟩ := List.mem_getLast?_eq_getLast (Option.mem_def.mpr hgl)
      rw [he]; exact List.getLast_mem hne2
    have hrlks : rl.map Prod.fst = ks := hks rl hrlmem
    have hksne : ks ≠ [] := by
      intro h0
      rw [h0] at hrlks
      have hrl0 : rl = [] := by simpa using hrlks
      rw [hrl0] at hp₀; simp at hp₀
    have hline : ∀ r ∈ r₀ :: rest,
        joinSep [','] (ks.map (fun h => escCell (List.lookup h r))) =
          lineOf (r.map Prod.snd) := by
      intro r hr
      have h1 : ks.map (fun k => List.lookup k r) = r.map (fun p => some p.2) := by
        rw [← hks r hr]
        exact lookup_rect r (by rw [hks r hr]; exact hnd)
      have h2 : ks.map (fun h => escCell (List.lookup h r)) =
          (ks.map (fun k => List.lookup k r)).map escCell := by
        rw [List.map_map]; rfl
      rw [lineOf, h2, h1, List.map_map, List.map_map]
      rfl
    have hheaderline : joinSep [','] ks = lineOf ks := by
      rw [lineOf]
      have hmap : ks.map (fun v => escCell (some v)) = ks := by
        have hcongr : ∀ k ∈ ks, escCell (some k) = k := fun k hk =>
          escCell_of_safe k (hsafe k hk).1 (hsafe k hk).2.1 (hsafe k hk).2.2.1
        exact (List.map_congr_left hcongr).trans (List.map_id ks)
      rw [hmap]
    have hdata : (r₀ :: rest).map
          (fun r => joinSep [','] (ks.map (fun h => escCell (List.lookup h r)))) =
        ((r₀ :: rest).map (fun r => r.map Prod.snd)).map lineOf := by
      rw [List.map_map]
      exact List.map_congr_left (fun r hr => hline r hr)
    have htoCSV : toCSV (r₀ :: rest) ',' =
        joinSep ['\n'] ((ks :: (r₀ :: rest).map (fun r => r.map Prod.snd)).map lineOf) := by
      simp only [toCSV, if_neg hne, hH]
      rw [hheaderline, hdata]
      exact congrArg _ (List.map_cons lineOf ks _).symm
    have hdataNe : ∀ l ∈ ks :: (r₀ :: rest).map (fun r => r.map Prod.snd), l ≠ [] := by
      intro l hl
      rcases List.mem_cons.mp hl with h | h
      · rw [h]; exact hksne
      · obtain ⟨r, hr, hrl2⟩ := List.mem_map.mp h
        intro h0
        rw [← hrl2] at h0
        have hr0 : r = [] := by simpa using h0
        have hks0 : r.map Prod.fst = ks := hks r hr
        rw [hr0] at hks0
        exact hksne (by simpa using hks0.symm)
    have hdataCR : ∀ l ∈ ks :: (r₀ :: rest).map (fun r => r.map Prod.snd),
        ∀ u ∈ l, '\r' ∉ u := by
      intro l hl u hu
      rcases List.mem_cons.mp hl with h | h
      · exact (hsafe u (h ▸ hu)).2.2.2
      · obtain ⟨r, hr, hrl2⟩ := List.mem_map.mp h
        rw [← hrl2] at hu
        obtain ⟨p, hp, hpu⟩ := List.mem_map.mp hu
        rw [← hpu]
        exact hcr r hr p hp
    have hscan := scanCSV_lines ((r₀ :: rest).map (fun r => r.map Prod.snd)) ks []
      hdataNe hdataCR
    rw [htoCSV]
    simp only [parseCSV]
    rw [hscan]
    simp only [List.nil_append]
    have hlastrow : (ks :: (r₀ :: rest).map (fun r => r.map Prod.snd)).getLast? =
        some (rl.map Prod.snd) := by
      simp only [List.map_cons, List.getLast?_cons_cons]
      rw [← List.map_cons, List.getLast?_map, hgl]
      rfl
    have hlastne : (rl.map Prod.snd).all List.isEmpty = false := by
      have hmem : p₀.2 ∈ rl.map Prod.snd := List.mem_map.mpr ⟨p₀, hp₀, rfl⟩
      have hie : p₀.2.isEmpty = false := by
        cases hp : p₀.2 with
        | nil => exact absurd hp hp₀ne
        | cons a t => rfl
      cases hall : (rl.map Prod.snd).all List.isEmpty with
      | false => rfl
      | true => exact absurd ((List.all_eq_true.mp hall) p₀.2 hmem) (by simp [hie])
    rw [dropTrailingEmptyRows_of_last _ (rl.map Prod.snd) hlastrow hlastne]
    simp [hH]

/-- Witness for C3 at the spec's Example 2 records, whose second cell
carries an embedded comma. -/
theorem C3_csv_roundTrip_witness :
    parseCSV (toCSV [[(chars "a", chars "1"), (chars "b", chars "x,y")],
        [(chars "a", chars "2"), (chars "b", chars "z")]] ',') ',' =
      ⟨[chars "a", chars "b"], [[chars "1", chars "x,y"], [chars "2", chars "z"]]⟩ := by
  have h := C3_csv_roundTrip
    [[(chars "a", chars "1"), (chars "b", chars "x,y")],
      [(chars "a", chars "2"), (chars "b", chars "z")]]
    [chars "a", chars "b"]
    (by decide) (by decide) (by decide) (by decide) (by decide)
  rw [h]
  decide

/-- C4 counterexample: with delimiter `;` a cell containing `;` is NOT
wrapped in double quotes — the serialized text is the raw join and carries
no quote at all. -/
theorem C4_counterexample :
    toCSV [[(chars "a", chars "x;y")]] ';' = chars "a\nx;y" ∧
    '"' ∉ toCSV [[(chars "a", chars "x;y")]] ';' := by decide

/-- The source's escape and the amended spec's escape agree cell-wise. -/
theorem escCell_eq_escCellSpec : ∀ v : Option Str, escCell v = escCellSpec v := by
  intro v
  cases v with
  | none => rfl
  | some s =>
    simp only [escCell, escCellSpec, needsQuote]
    have hfun : (s.any fun c => c == '"' || c == ',' || c == '\n') =
        (s.any fun c => c == ',' || c == '"' || c == '\n') := by
      congr 1
      funext c
      rw [Bool.or_comm (c == '"') (c == ',')]
    simp only [hfun]

/-- C4 as amended: for every record list and every delimiter, the
serializer wraps exactly the cells containing a comma (the character fixed
in the escape test), a double quote or a line feed — never consulting the
delimiter — doubles internal quotes, and serializes missing keys as the
empty string; i.e. it coincides with the spec-worded serializer. -/
theorem C4_toCSV_escape :
    ∀ (rows : List CsvRecord) (d : Char), toCSV rows d = toCSVspec rows d := by
  intro rows d
  simp only [toCSV, toCSVspec, escCell_eq_escCellSpec]

/-- The split of a string at a character is never the empty list. -/
theorem splitOnChar_ne_nil (d : Char) (s : Str) : splitOnChar d s ≠ [] := by
  cases s with
  | nil => simp [splitOnChar]
  | cons c rest =>
    by_cases h : c = d
    · simp [splitOnChar, h]
    · simp only [splitOnChar, if_neg h]
      cases hs : splitOnChar d rest with
      | nil => simp
      | cons s ss => simp

/-- Scanning quote-free single-line text produces one row: the split of
the text at the delimiter (with the pending cell prefixed). -/
theorem scanCSV_split :
    ∀ (text : Str) (cur : Str) (row : List Str) (rows : List (List Str)),
      (∀ c ∈ text, c ≠ '"' ∧ c ≠ '\n' ∧ c ≠ '\r') →
      scanCSV ',' text false cur row rows =
        rows ++ [row ++ (match splitOnChar ',' text with
          | s :: ss => (cur ++ s) :: ss
          | [] => [cur])] := by
  intro text
  induction text with
  | nil => intro cur row rows _; simp [scanCSV, splitOnChar]
  | cons c rest ih =>
    intro cur row rows hc
    obtain ⟨h1, h2, h3⟩ := hc c (by simp)
    obtain ⟨s, ss, hsplit⟩ : ∃ s ss, splitOnChar ',' rest = s :: ss := by
      cases hs : splitOnChar ',' rest with
      | nil => exact absurd hs (splitOnChar_ne_nil ',' rest)
      | cons s ss => exact ⟨s, ss, rfl⟩
    by_cases hcd : c = ','
    · subst hcd
      rw [scanCSV_delim ',' rest cur row rows (by decide) (by decide) (by decide)]
      rw [ih [] (row ++ [cur]) rows (fun u hu => hc u (by simp [hu]))]
      rw [hsplit]
      simp only [splitOnChar, if_pos rfl, hsplit]
      simp
    · rw [scanCSV_other ',' c rest false cur row rows h1 h2 h3]
      have hb : (c == ',' && !(false : Bool)) = false := by simp [hcd]
      rw [hb]
      simp only [Bool.false_eq_true, if_false]
      rw [ih (cur ++ [c]) row rows (fun u hu => hc u (by simp [hu]))]
      rw [hsplit]
      simp only [splitOnChar, if_neg hcd, hsplit]
      simp

/-- C5 counterexample: a single non-empty header row parses to that row as
headers, not to empty headers. -/
theorem C5_counterexample :
    parseCSV (chars "a,b") ',' = ⟨[chars "a", chars "b"], []⟩ ∧
    ([chars "a", chars "b"] : List Str) ≠ [] := by decide

/-- C5 as amended: on empty or single-line input (no line terminators, no
quotes) the data rows are always empty; the headers are empty exactly when
every cell of the single row is empty (in particular for empty input), and
otherwise echo the row's cells. -/
theorem C5_parseCSV_singleRow :
    ∀ text : Str, '\n' ∉ text → '\r' ∉ text → '"' ∉ text →
      parseCSV text ',' =
        if (splitOnChar ',' text).all List.isEmpty then ⟨[], []⟩
        else ⟨splitOnChar ',' text, []⟩ := by
  intro text h1 h2 h3
  have hscan := scanCSV_split text [] [] [] (fun c hcm =>
    ⟨fun e => h3 (e ▸ hcm), fun e => h1 (e ▸ hcm), fun e => h2 (e ▸ hcm)⟩)
  obtain ⟨s, ss, hsplit⟩ : ∃ s ss, splitOnChar ',' text = s :: ss := by
    cases hs : splitOnChar ',' text with
    | nil => exact absurd hs (splitOnChar_ne_nil ',' text)
    | cons s ss => exact ⟨s, ss, rfl⟩
  simp only [parseCSV]
  rw [hscan, hsplit]
  simp only [List.nil_append]
  by_cases hall : (s :: ss).all List.isEmpty = true
  · rw [if_pos hall]
    have hdrop : dropTrailingEmptyRows [s :: ss] = [] := by
      simp [dropTrailingEmptyRows, hall]
    rw [hdrop]
  · rw [if_neg hall]
    have hdrop : dropTrailingEmptyRows [s :: ss] = [s :: ss] := by
      simp [dropTrailingEmptyRows, hall]
    rw [hdrop]

/-- Witness for C5 as amended: a one-cell row echoes into the headers and
an all-empty row yields the fully empty document; data rows are empty in
both cases. -/
theorem C5_parseCSV_singleRow_witness :
    parseCSV (chars "x") ',' = ⟨[chars "x"], []⟩ ∧
    parseCSV (chars ",,") ',' = ⟨[], []⟩ := by
  have hx := C5_parseCSV_singleRow (chars "x") (by decide) (by decide) (by decide)
  have hc := C5_parseCSV_singleRow (chars ",,") (by decide) (by decide) (by decide)
  rw [hx, hc]
  decide

/-- The histogram has exactly `k` bins. -/
theorem histRows_length (mn w mx : ℚ) (k : ℕ) (clean : List ℚ) :
    (histRows mn w mx k clean).length = k := by simp [histRows]

/-- The mode-specific domain is always well ordered. -/
theorem histDomain_fst_le_snd (mode : HistMode) (mn0 mx0 : ℚ) :
    (histDomain mode mn0 mx0).1 ≤ (histDomain mode mn0 mx0).2 := by
  cases mode with
  | residual =>
    simp only [histDomain]
    have h0 : (0:ℚ) ≤ max |mn0| |mx0| := le_trans (abs_nonneg mn0) (le_max_left _ _)
    linarith
  | absolute =>
    simp only [histDomain]
    exact le_max_left _ _

/-- The bin width is positive on a well-ordered domain. -/
theorem histWidth_pos (mn mx : ℚ) (k : ℕ) (hle : mn ≤ mx) : 0 < histWidth mn mx k := by
  unfold histWidth
  by_cases h : (mx - mn) / (k : ℚ) = 0
  · rw [if_pos h]; norm_num
  · rw [if_neg h]
    have hnn : (0:ℚ) ≤ (mx - mn) / (k : ℚ) := by
      apply div_nonneg (by linarith)
      positivity
    exact lt_of_le_of_ne hnn (Ne.symm h)

/-- The clamped bin count is a positive natural number. -/
theorem clamp_toNat_pos (bins : ℤ) : 0 < (clamp bins 5 60).toNat := by
  have h5 : (5:ℤ) ≤ clamp bins 5 60 := le_max_left _ _
  omega

/-- Sums of pointwise sums split. -/
theorem sum_map_add (l : List ℕ) (f g : ℕ → ℕ) :
    (l.map (fun i => f i + g i)).sum = (l.map f).sum + (l.map g).sum := by
  induction l with
  | nil => rfl
  | cons a l ih =>
    simp only [List.map_cons, List.sum_cons, ih]
    omega

/-- An indicator of one index sums to at most one over a range. -/
theorem sum_ind_le_one (k j : ℕ) :
    ((List.range k).map (fun i => if j = i then 1 else 0)).sum ≤ 1 := by
  induction k with
  | zero => simp
  | succ k ih =>
    rw [List.range_succ, List.map_append, List.sum_append]
    by_cases h : j = k
    · subst h
      have hz : ((List.range j).map (fun i => if j = i then 1 else 0)).sum = 0 := by
        apply List.sum_eq_zero
        intro x hx
        obtain ⟨i, hi, hxi⟩ := List.mem_map.mp hx
        have hij : i < j := List.mem_range.mp hi
        rw [← hxi, if_neg (by omega)]
      simp [hz]
    · simpa [h] using ih

/-- Every sample value is counted in at most one bin, so the bin counts
sum to at most the sample size. -/
theorem histRows_sum_le (mn w mx : ℚ) (k : ℕ) (clean : List ℚ) :
    ((histRows mn w mx k clean).map HistRow.count).sum ≤ clean.length := by
  have hform : (histRows mn w mx k clean).map HistRow.count =
      (List.range k).map (fun i =>
        (clean.filter (fun v =>
          decide (mn ≤ v) && decide (v ≤ mx) && (binIdx mn w k v == i))).length) := by
    rw [histRows, List.map_map]
    exact List.map_congr_left (fun i _ => rfl)
  rw [hform]
  clear hform
  induction clean with
  | nil => simp
  | cons v rest ih =>
    have hstep : (List.range k).map (fun i =>
          ((v :: rest).filter (fun u =>
            decide (mn ≤ u) && decide (u ≤ mx) && (binIdx mn w k u == i))).length) =
        (List.range k).map (fun i =>
          (if (decide (mn ≤ v) && decide (v ≤ mx) && (binIdx mn w k v == i)) = true
            then 1 else 0) +
          (rest.filter (fun u =>
            decide (mn ≤ u) && decide (u ≤ mx) && (binIdx mn w k u == i))).length) := by
      refine List.map_congr_left (fun i _ => ?_)
      rw [List.filter_cons]
      by_cases hp : (decide (mn ≤ v) && decide (v ≤ mx) && (binIdx mn w k v == i)) = true
      · simp [hp]
        omega
      · simp [hp]
    rw [hstep, sum_map_add]
    have hind : ((List.range k).map (fun i =>
        if (decide (mn ≤ v) && decide (v ≤ mx) && (binIdx mn w k v == i)) = true
          then 1 else 0)).sum ≤ 1 := by
      refine le_trans (List.sum_le_sum (fun i _ => ?_)) (sum_ind_le_one k (binIdx mn w k v))
      by_cases hb : binIdx mn w k v = i
      · simp only [hb]
        split <;> simp
      · have hz : (decide (mn ≤ v) && decide (v ≤ mx) && (binIdx mn w k v == i)) = false := by
          simp [hb]
        simp [hz, hb]
    rw [List.length_cons]
    omega

/-- Bins are contiguous: each bin's upper edge is the next bin's lower
edge. -/
theorem histRows_contig (mn w mx : ℚ) (k : ℕ) (clean : List ℚ) :
    ∀ (i : ℕ) (h : i + 1 < (histRows mn w mx k clean).length),
      ((histRows mn w mx k clean).get ⟨i, Nat.lt_of_succ_lt h⟩).x1 =
        ((histRows mn w mx k clean).get ⟨i + 1, h⟩).x0 := by
  intro i h
  simp only [List.get_eq_getElem, histRows, List.getElem_map, List.getElem_range]
  push_cast
  ring

/-- Bins have strictly increasing edges when the width is positive. -/
theorem histRows_x0_lt_x1 (mn w mx : ℚ) (k : ℕ) (clean : List ℚ) (hw : 0 < w) :
    ∀ (i : ℕ) (h : i < (histRows mn w mx k clean).length),
      ((histRows mn w mx k clean).get ⟨i, h⟩).x0 <
        ((histRows mn w mx k clean).get ⟨i, h⟩).x1 := by
  intro i h
  simp only [List.get_eq_getElem, histRows, List.getElem_map, List.getElem_range]
  have he : ((i : ℚ) + 1) * w = (i : ℚ) * w + w := by ring
  rw [he]
  linarith

/-- C6: the histogram is built with the bin count clamped into `[5, 60]`;
its bins have strictly increasing, contiguous edges; and the bin counts
sum to at most the number of finite input values (out-of-domain values are
dropped, each in-domain value lands in exactly one bin). -/
theorem C6_toHistogram_invariants :
    ∀ (values : List JsNumber) (bins : ℤ) (mode : HistMode),
      (cleanOf values ≠ [] →
        (toHistogram values bins mode).length = (clamp bins 5 60).toNat) ∧
      (∀ (i : ℕ) (h : i + 1 < (toHistogram values bins mode).length),
        ((toHistogram values bins mode).get ⟨i, Nat.lt_of_succ_lt h⟩).x1 =
          ((toHistogram values bins mode).get ⟨i + 1, h⟩).x0) ∧
      (∀ (i : ℕ) (h : i < (toHistogram values bins mode).length),
        ((toHistogram values bins mode).get ⟨i, h⟩).x0 <
          ((toHistogram values bins mode).get ⟨i, h⟩).x1) ∧
      ((toHistogram values bins mode).map HistRow.count).sum ≤ (cleanOf values).length := by
  intro values bins mode
  cases hclean : cleanOf values with
  | nil =>
    have h0 : toHistogram values bins mode = [] := by
      simp [toHistogram, hclean]
    refine ⟨fun hne => absurd rfl hne, ?_, ?_, ?_⟩
    · intro i h; rw [h0] at h; simp at h
    · intro i h; rw [h0] at h; simp at h
    · rw [h0]; simp
  | cons c cs =>
    have hunfold : toHistogram values bins mode =
        histRows (histDomain mode (cs.foldl min c) (cs.foldl max c)).1
          (histWidth (histDomain mode (cs.foldl min c) (cs.foldl max c)).1
            (histDomain mode (cs.foldl min c) (cs.foldl max c)).2
            (clamp bins 5 60).toNat)
          (histDomain mode (cs.foldl min c) (cs.foldl max c)).2
          (clamp bins 5 60).toNat (c :: cs) := by
      simp [toHistogram, hclean]
    have hw : 0 < histWidth (histDomain mode (cs.foldl min c) (cs.foldl max c)).1
        (histDomain mode (cs.foldl min c) (cs.foldl max c)).2 (clamp bins 5 60).toNat :=
      histWidth_pos _ _ _ (histDomain_fst_le_snd mode _ _)
    refine ⟨fun _ => ?_, ?_, ?_, ?_⟩
    · rw [hunfold, histRows_length]
    · intro i h
      revert h
      rw [hunfold]
      intro h
      exact histRows_contig _ _ _ _ _ i h
    · intro i h
      revert h
      rw [hunfold]
      intro h
      exact histRows_x0_lt_x1 _ _ _ _ _ hw i h
    · rw [hunfold]
      exact histRows_sum_le _ _ _ _ _

/-- Witness for C6 at the spec's residual example input with 2 requested
bins. -/
theorem C6_toHistogram_invariants_witness :
    (toHistogram [.fin (-5), .fin (-1), .fin 0, .fin 1, .fin 5] 2 .residual).length =
      (clamp 2 5 60).toNat ∧
    ((toHistogram [.fin (-5), .fin (-1), .fin 0, .fin 1, .fin 5] 2 .residual).map
        HistRow.count).sum ≤
      (cleanOf [.fin (-5), .fin (-1), .fin 0, .fin 1, .fin 5]).length := by
  have h := C6_toHistogram_invariants [.fin (-5), .fin (-1), .fin 0, .fin 1, .fin 5] 2 .residual
  exact ⟨h.1 (by decide), h.2.2.2⟩

/-- C2 counterexample: requesting 2 bins on `[-5,-1,0,1,5]` in residual
mode does not give two bins — the bin count is clamped up to 5. -/
theorem C2_counterexample :
    (toHistogram [.fin (-5), .fin (-1), .fin 0, .fin 1, .fin 5] 2 .residual).length ≠ 2 := by
  have hclean : cleanOf [.fin (-5), .fin (-1), .fin 0, .fin 1, .fin 5] =
      [-5, -1, 0, 1, 5] := rfl
  simp only [toHistogram, hclean]
  rw [histRows_length]
  norm_num [clamp, min_def, max_def]
  omega

/-- C2 as amended: on `[-5,-1,0,1,5]` with requested bin count 2 in
residual mode, the count is clamped up to 5; the domain is forced
symmetric to `[-5,5]` (since `a = max(5,5) = 5`), the width is 2, and the
five bins `[-5,-3], [-3,-1], [-1,1], [1,3], [3,5]` count `[1,0,2,1,1]` —
the domain maximum 5 landing in the last bin by the max-goes-to-last-bin
rule. -/
theorem C2_toHistogram_residual_example :
    toHistogram [.fin (-5), .fin (-1), .fin 0, .fin 1, .fin 5] 2 .residual =
      [⟨-5, -3, -4, 1⟩, ⟨-3, -1, -2, 0⟩, ⟨-1, 1, 0, 2⟩, ⟨1, 3, 2, 1⟩, ⟨3, 5, 4, 1⟩] := by
  have hclean : cleanOf [.fin (-5), .fin (-1), .fin 0, .fin 1, .fin 5] =
      [-5, -1, 0, 1, 5] := rfl
  simp only [toHistogram, hclean]
  have hmn0 : ([-1, 0, 1, 5] : List ℚ).foldl min (-5) = -5 := by
    norm_num [List.foldl, min_def]
  have hmx0 : ([-1, 0, 1, 5] : List ℚ).foldl max (-5) = 5 := by
    norm_num [List.foldl, max_def]
  rw [hmn0, hmx0]
  have hdom : histDomain .residual (-5) 5 = (-5, 5) := by
    norm_num [histDomain, max_def]
  rw [hdom]
  have hk : (clamp 2 5 60).toNat = 5 := by
    norm_num [clamp, min_def, max_def]
    omega
  simp only [hk]
  have hw : histWidth (-5) 5 5 = 2 := by norm_num [histWidth]
  simp only [hw]
  have hb1 : binIdx (-5) 2 5 (-5) = 0 := by norm_num [binIdx]
  have hb2 : binIdx (-5) 2 5 (-1) = 2 := by norm_num [binIdx]; omega
  have hb3 : binIdx (-5) 2 5 0 = 2 := by norm_num [binIdx]; omega
  have hb4 : binIdx (-5) 2 5 1 = 3 := by norm_num [binIdx]; omega
  have hb5 : binIdx (-5) 2 5 5 = 4 := by norm_num [binIdx]
  have hr5 : List.range 5 = [0, 1, 2, 3, 4] := by decide
  simp only [histRows, hr5, List.map_cons, List.map_nil]
  norm_num [List.filter, hb1, hb2, hb3, hb4, hb5]
  all_goals decide

/-- Rebuilding an object from a pair list and listing it again is the
identity. -/
theorem objToList_objFromList : ∀ l : List (Str × Json), objToList (objFromList l) = l
  | [] => rfl
  | (k, v) :: t => by simp [objFromList, objToList, objToList_objFromList t]

/-- Canonicalizing an object's values commutes with listing its pairs. -/
theorem objToList_canonObj : ∀ o : JsonObj,
    objToList (canonObj o) = (objToList o).map (fun p => (p.1, canon p.2))
  | .nil => rfl
  | .cons k v t => by simp [canonObj, objToList, objToList_canonObj t]

instance : IsTotal (Str × Json) keyLE := ⟨fun a b => le_total a.1 b.1⟩

instance : IsTrans (Str × Json) keyLE := ⟨fun _ _ _ h₁ h₂ => le_trans h₁ h₂⟩

/-- Sorting pairs permutes them. -/
theorem sortPairs_perm (l : List (Str × Json)) : (sortPairs l).Perm l :=
  List.perm_insertionSort keyLE l

/-- Sorted pairs are sorted by key. -/
theorem sortPairs_sorted (l : List (Str × Json)) : List.Sorted keyLE (sortPairs l) :=
  List.sorted_insertionSort keyLE l

/-- Canonicalizing values does not change the key list. -/
theorem map_fst_canonPairs (l : List (Str × Json)) :
    (l.map (fun p => (p.1, canon p.2))).map Prod.fst = l.map Prod.fst := by
  rw [List.map_map]
  exact List.map_congr_left (fun p _ => rfl)

/-- Two pair lists with duplicate-free, permuted keys and key-wise equal
values sort to the same list. -/
theorem sortPairs_eq_of_perm (l₁ l₂ : List (Str × Json))
    (hnd : (l₁.map Prod.fst).Nodup)
    (hperm : (l₁.map Prod.fst).Perm (l₂.map Prod.fst))
    (hval : ∀ k v₁ v₂, (k, v₁) ∈ l₁ → (k, v₂) ∈ l₂ → v₁ = v₂) :
    sortPairs l₁ = sortPairs l₂ := by
  have hp₁ := sortPairs_perm l₁
  have hp₂ := sortPairs_perm l₂
  have hkeys₁ : List.Sorted (fun a b : Str => a ≤ b) ((sortPairs l₁).map Prod.fst) :=
    List.pairwise_map.mpr (sortPairs_sorted l₁)
  have hkeys₂ : List.Sorted (fun a b : Str => a ≤ b) ((sortPairs l₂).map Prod.fst) :=
    List.pairwise_map.mpr (sortPairs_sorted l₂)
  have hkeyperm : ((sortPairs l₁).map Prod.fst).Perm ((sortPairs l₂).map Prod.fst) :=
    ((hp₁.map Prod.fst).trans hperm).trans (hp₂.map Prod.fst).symm
  have hkeys : (sortPairs l₁).map Prod.fst = (sortPairs l₂).map Prod.fst :=
    List.eq_of_perm_of_sorted hkeyperm hkeys₁ hkeys₂
  have hlen : (sortPairs l₁).length = (sortPairs l₂).length := by
    have := congrArg List.length hkeys
    simpa using this
  refine List.ext_getElem hlen (fun i h₁ h₂ => ?_)
  have hk : ((sortPairs l₁)[i]).1 = ((sortPairs l₂)[i]).1 := by
    have e1 : ((sortPairs l₁).map Prod.fst)[i]? = some ((sortPairs l₁)[i]).1 := by
      rw [List.getElem?_map, List.getElem?_eq_getElem h₁]
      rfl
    have e2 : ((sortPairs l₂).map Prod.fst)[i]? = some ((sortPairs l₂)[i]).1 := by
      rw [List.getElem?_map, List.getElem?_eq_getElem h₂]
      rfl
    rw [hkeys, e2] at e1
    exact (Option.some.injEq _ _ ▸ e1).symm
  have hm₁ : (sortPairs l₁)[i] ∈ l₁ := hp₁.subset (List.getElem_mem h₁)
  have hm₂ : (sortPairs l₂)[i] ∈ l₂ := hp₂.subset (List.getElem_mem h₂)
  have hv : ((sortPairs l₁)[i]).2 = ((sortPairs l₂)[i]).2 := by
    refine hval ((sortPairs l₁)[i]).1 _ _ ?_ ?_
    · simpa using hm₁
    · rw [hk]
      simpa using hm₂
  exact Prod.ext hk hv

/-- Listing a canonicalized array is mapping `canon` over its elements. -/
theorem arrToList_canonArr : ∀ a : JsonArr, arrToList (canonArr a) = (arrToList a).map canon
  | .nil => rfl
  | .cons h t => by simp [canonArr, arrToList, arrToList_canonArr t]

/-- An array is determined by its element list. -/
theorem arrToList_inj : ∀ {a b : JsonArr}, arrToList a = arrToList b → a = b
  | .nil, .nil, _ => rfl
  | .nil, .cons _ _, h => by simp [arrToList] at h
  | .cons _ _, .nil, h => by simp [arrToList] at h
  | .cons x xs, .cons y ys, h => by
    simp only [arrToList, List.cons.injEq] at h
    rw [h.1, arrToList_inj h.2]

/-- Key-order-equivalent values canonicalize identically. -/
theorem canon_eq_of_keyPerm : ∀ {a b : Json}, KeyPerm a b → canon a = canon b := by
  intro a b h
  induction h with
  | null => rfl
  | bool b => rfl
  | num n => rfl
  | str s => rfl
  | arr hlen harr ih =>
    simp only [canon]
    congr 1
    apply arrToList_inj
    rw [arrToList_canonArr, arrToList_canonArr]
    refine List.ext_getElem (by simpa using hlen) (fun i hi₁ hi₂ => ?_)
    simp only [List.getElem_map]
    have := ih i (by simpa using hi₁) (by simpa using hi₂)
    simpa [List.get_eq_getElem] using this
  | obj hnd₁ hnd₂ hperm hval ih =>
    simp only [canon]
    congr 1
    congr 1
    apply sortPairs_eq_of_perm
    · rw [objToList_canonObj, map_fst_canonPairs]
      exact hnd₁
    · rw [objToList_canonObj, objToList_canonObj, map_fst_canonPairs, map_fst_canonPairs]
      exact hperm
    · intro k v₁ v₂ h₁ h₂
      rw [objToList_canonObj] at h₁ h₂
      obtain ⟨p₁, hp₁, he₁⟩ := List.mem_map.mp h₁
      obtain ⟨p₂, hp₂, he₂⟩ := List.mem_map.mp h₂
      have hk₁ : p₁.1 = k := congrArg Prod.fst he₁
      have hk₂ : p₂.1 = k := congrArg Prod.fst he₂
      have hv₁ : canon p₁.2 = v₁ := congrArg Prod.snd he₁
      have hv₂ : canon p₂.2 = v₂ := congrArg Prod.snd he₂
      have hcv : canon p₁.2 = canon p₂.2 := by
        refine ih k p₁.2 p₂.2 ?_ ?_
        · rw [← hk₁]
          simpa using hp₁
        · rw [← hk₂]
          simpa using hp₂
      rw [← hv₁, ← hv₂, hcv]

/-- C9: key-order-equivalent JSON values hash identically; in particular
the two insertion orders of one two-key object produce equal hash
strings. -/
theorem C9_hashObject_keyOrder :
    (∀ a b : Json, KeyPerm a b → hashObject a = hashObject b) ∧
    hashObject (.obj (.cons (chars "a") (.num 1) (.cons (chars "b") (.num 2) .nil))) =
      hashObject (.obj (.cons (chars "b") (.num 2) (.cons (chars "a") (.num 1) .nil))) := by
  constructor
  · intro a b h
    unfold hashObject stableStringify
    rw [canon_eq_of_keyPerm h]
  · decide

/-- Witness for C9: the hash-equality law applied to one concrete pair of
key-order-equivalent objects, with the key-permutation derivation spelled
out. -/
theorem C9_hashObject_keyOrder_witness :
    hashObject (.obj (.cons (chars "x") .null (.cons (chars "y") (.bool true) .nil))) =
      hashObject (.obj (.cons (chars "y") (.bool true) (.cons (chars "x") .null .nil))) := by
  refine C9_hashObject_keyOrder.1 _ _ (KeyPerm.obj ?_ ?_ ?_ ?_)
  · decide
  · decide
  · decide
  · intro k v₁ v₂ h₁ h₂
    simp only [objToList, List.mem_cons, List.not_mem_nil, or_false, Prod.mk.injEq] at h₁ h₂
    rcases h₁ with ⟨hk₁, hv₁⟩ | ⟨hk₁, hv₁⟩ <;> rcases h₂ with ⟨hk₂, hv₂⟩ | ⟨hk₂, hv₂⟩ <;>
      subst hv₁ <;> subst hv₂ <;>
      first
      | exact KeyPerm.null
      | exact KeyPerm.bool true
      | exact absurd (hk₁.symm.trans hk₂) (by decide)
